import Mathlib

/-
  Shallow embedding of the marginal-extraction core of gtsam:
    * src/gtsam/linear/JacobianFactor-inl.h  (block-factor construction/validation)
    * src/gtsam/nonlinear/Marginals.cpp      (marginal / joint-marginal queries)

  Machine scalars are modelled by ℚ (the code's numeric behaviour that the
  claims touch is purely structural: dimensions, block layout, dispatch and
  error ordering).  External collaborators (elimination, the Bayes tree query
  surface, the solution-point dimension lookup) are fields of an environment
  structure, as the spec treats them: opaque functions with stated contracts.
-/

set_option maxHeartbeats 1000000

namespace GtsamSpec

/-- Variable identifier: an opaque, totally-ordered, hashable key (gtsam `Key`
is a 64-bit unsigned integer; modelled as ℕ). -/
abbrev Key := Nat

/-- Dense matrix over ℚ with explicit size, modelling Eigen's `gtsam::Matrix`.
Entries outside the `rows × cols` range are irrelevant junk. -/
@[ext]
structure GMatrix where
  rows : Nat
  cols : Nat
  entry : Nat → Nat → ℚ

/-- Dense vector over ℚ with explicit length, modelling `gtsam::Vector`. -/
structure GVector where
  size : Nat
  entry : Nat → ℚ

/-- Noise model collaborator: externally owned; the code only ever reads its
dimension (`model->dim()`). -/
structure NoiseModel where
  dim : Nat

/-- Nullable shared pointer to a noise model (`SharedDiagonal`); `none` means
absent, i.e. unit weighting. -/
abbrev SharedDiagonal := Option NoiseModel

/-- Structural `std::invalid_argument` errors thrown by the KEYS constructor
of `JacobianFactor` (modelled as tags rather than message strings). -/
inductive InvalidArgumentKind where
  | keyCountMismatch
  | lastBlockNotColumn
  deriving DecidableEq, Repr

/-- Error kinds raised on the construction paths under study.
`invalidNoiseModel` and `invalidMatrixBlock` carry `(expected, actual)` as in
`gtsam/linear/linearExceptions.h`; `dimensionError` is the Block Matrix
Store's construction failure (spec section 4.1). -/
inductive LinearError where
  | invalidNoiseModel (expected actual : Nat)
  | invalidMatrixBlock (expected actual : Nat)
  | invalidArgument (kind : InvalidArgumentKind)
  | dimensionError
  deriving DecidableEq, Repr

/-- Block Matrix Store (gtsam `VerticalBlockMatrix`): an augmented matrix
partitioned into contiguous column blocks of fixed widths.  Modelled as the
common row count plus the list of column blocks. -/
structure VerticalBlockMatrix where
  rowCount : Nat
  blocks : List GMatrix

/-- Number of blocks (`nBlocks()`). -/
def VerticalBlockMatrix.nBlocks (Ab : VerticalBlockMatrix) : Nat :=
  Ab.blocks.length

/-- Block accessor (`operator()(i)`); out-of-range access yields a junk empty
block (the C++ asserts the range). -/
def VerticalBlockMatrix.block (Ab : VerticalBlockMatrix) (i : Nat) : GMatrix :=
  Ab.blocks.getD i ⟨0, 0, fun _ _ => 0⟩

/-- Replace block `i` (`Ab_(i) = A`); block boundaries are immutable, only the
contents change. -/
def VerticalBlockMatrix.setBlock (Ab : VerticalBlockMatrix) (i : Nat) (A : GMatrix) :
    VerticalBlockMatrix :=
  ⟨Ab.rowCount, Ab.blocks.set i A⟩

/-- Modelled from the spec: Block Matrix Store `Construct(widths, rowCount)`
(section 4.1); the store class itself is outside the given sources.  It
allocates one uninitialized (here: zero-filled) block per width and fails with
`DimensionError` when a width is non-positive; a negative row count cannot
arise with natural-number dimensions. -/
def VerticalBlockMatrix.ofWidths (widths : List Nat) (height : Nat) :
    Except LinearError VerticalBlockMatrix :=
  if widths.all (fun w => w != 0) then
    .ok ⟨height, widths.map (fun w => ⟨height, w, fun _ _ => 0⟩)⟩
  else
    .error .dimensionError

/-- Helper mirroring gtsam's `ListOfOne`: a one-element width sequence. -/
def ListOfOne (w : Nat) : List Nat := [w]

/-- Linear Gaussian Factor (gtsam `JacobianFactor`): ordered keys, the owned
augmented block store, and an optional noise model. -/
structure JacobianFactor where
  keys : List Key
  Ab : VerticalBlockMatrix
  model : SharedDiagonal

/-- Loop body of `JacobianFactor::fillTerms` (`BOOST_FOREACH` over the terms
with running block index `i`): validate each block's row count against the
right-hand side length, then write the key and the block at position `i`. -/
def fillTermsLoop (bsize : Nat) :
    List (Key × GMatrix) → Nat → List Key → VerticalBlockMatrix →
    Except LinearError (List Key × VerticalBlockMatrix)
  | [], _, keys, Ab => .ok (keys, Ab)
  | term :: rest, i, keys, Ab =>
    if term.2.rows ≠ bsize then
      .error (.invalidMatrixBlock bsize term.2.rows)
    else
      fillTermsLoop bsize rest (i + 1) (keys.set i term.1) (Ab.setBlock i term.2)

/-- The noise-model dimension check heading `fillTerms`:
`if(noiseModel && (DenseIndex)noiseModel->dim() != b.size()) throw ...`. -/
def noiseModelCheck (noiseModel : SharedDiagonal) (bsize : Nat) : Option LinearError :=
  match noiseModel with
  | some nm => if nm.dim ≠ bsize then some (.invalidNoiseModel bsize nm.dim) else none
  | none => none

/-- Write the right-hand-side vector into the trailing block (`getb() = b`). -/
def assignRhs (Ab : VerticalBlockMatrix) (b : GVector) : VerticalBlockMatrix :=
  Ab.setBlock (Ab.blocks.length - 1) ⟨b.size, 1, fun r _ => b.entry r⟩

/-- `JacobianFactor::fillTerms(terms, b, noiseModel)`: noise-model check,
store allocation from the gathered widths joined with a trailing `1`, the
validate-and-copy loop, right-hand-side assignment, noise-model assignment. -/
def fillTerms (terms : List (Key × GMatrix)) (b : GVector) (noiseModel : SharedDiagonal) :
    Except LinearError JacobianFactor :=
  match noiseModelCheck noiseModel b.size with
  | some e => .error e
  | none =>
    match VerticalBlockMatrix.ofWidths (terms.map (fun t => t.2.cols) ++ ListOfOne 1) b.size with
    | .error e => .error e
    | .ok Ab0 =>
      match fillTermsLoop b.size terms 0 (List.replicate terms.length 0) Ab0 with
      | .error e => .error e
      | .ok (keys, Ab1) => .ok ⟨keys, assignRhs Ab1 b, noiseModel⟩

/-- The `JacobianFactor(KEYS, VerticalBlockMatrix, SharedDiagonal)` constructor
(JacobianFactor-inl.h lines 37-60): three checks in source order, then the
factor is assembled without copying.  The key-count comparison is carried out
over ℤ because the C++ comparison is between signed `DenseIndex` values
(`nBlocks() - 1` underflows to `-1` on an empty store rather than to `0`). -/
def jacobianFactorOfKeys (keys : List Key) (augmentedMatrix : VerticalBlockMatrix)
    (model : SharedDiagonal) : Except LinearError JacobianFactor :=
  match noiseModelCheck model augmentedMatrix.rowCount with
  | some e => .error e
  | none =>
    if (keys.length : Int) ≠ (augmentedMatrix.nBlocks : Int) - 1 then
      .error (.invalidArgument .keyCountMismatch)
    else if (augmentedMatrix.block (augmentedMatrix.nBlocks - 1)).cols ≠ 1 then
      .error (.invalidArgument .lastBlockNotColumn)
    else
      .ok ⟨keys, augmentedMatrix, model⟩

/-! Marginal Query Engine (`Marginals.cpp`). -/

/-- Submatrix view `A.topLeftCorner(r, c)` (entries outside the view are
clipped to `0`). -/
def GMatrix.topLeftCorner (A : GMatrix) (r c : Nat) : GMatrix :=
  ⟨r, c, fun i j => if i < r ∧ j < c then A.entry i j else 0⟩

/-- Laplace expansion along the first row: determinant of the leading
`n × n` corner of an entry function. -/
def detN : Nat → (Nat → Nat → ℚ) → ℚ
  | 0, _ => 1
  | n + 1, f =>
      ((List.range (n + 1)).map fun j =>
        (-1 : ℚ) ^ j * f 0 j *
          detN n (fun r c => f (r + 1) (if c < j then c else c + 1))).sum

/-- Determinant of a (square) matrix. -/
def GMatrix.det (A : GMatrix) : ℚ :=
  detN A.rows A.entry

/-- Numeric inverse of a square matrix (`A.inverse()` in Eigen), via the
cofactor formula `A⁻¹ = det(A)⁻¹ · adj(A)`.  On a singular matrix the ℚ
convention `0⁻¹ = 0` makes every entry `0`, standing in for the unusable
output the floating-point routine produces; nothing downstream detects or
reports that case, exactly as in the source. -/
def GMatrix.inverse (A : GMatrix) : GMatrix :=
  ⟨A.rows, A.rows, fun i j =>
    if i < A.rows ∧ j < A.rows then
      (A.det)⁻¹ * ((-1 : ℚ) ^ (i + j) *
        detN (A.rows - 1) (fun r c =>
          A.entry (if r < j then r else r + 1) (if c < i then c else c + 1)))
    else 0⟩

/-- The two numerical elimination strategies passed to the collaborators
(`EliminatePreferCholesky` / `EliminateQR` function pointers). -/
inductive ElimFn where
  | preferCholesky
  | qr
  deriving DecidableEq, Repr

/-- The `Marginals::Factorization` mode flag.  It is a C++ enum whose
underlying integer type admits values other than the two declared constants,
which matters to the safety claim; hence ℕ rather than a two-constructor
inductive type. -/
abbrev Factorization := Nat

/-- `Factorization::CHOLESKY`. -/
def CHOLESKY : Factorization := 0

/-- `Factorization::QR`. -/
def QR : Factorization := 1

/-- Gaussian factor as the marginal-factor collaborator returns it; the only
operation the engine performs on it is `->information()`. -/
structure GFactor where
  information : GMatrix

/-- Gaussian factor graph as returned by the Bayes-tree joint query or by
conversion from a Bayes tree; the only operation performed on it is
`augmentedHessian()`. -/
structure GaussianFG where
  augmentedHessian : GMatrix

/-- A default-constructed (empty) `GaussianFactorGraph`: the value `jointFG`
keeps when the stored factorization matches neither recognized constant.  Its
augmented Hessian is an unconstrained placeholder; every theorem below that
reaches it assumes a recognized factorization. -/
def GaussianFG.defaultFG : GaussianFG :=
  ⟨⟨0, 0, fun _ _ => 0⟩⟩

/-- Post-construction state of a `Marginals` object together with its external
collaborators (spec section 6), over an abstract Bayes-tree type `BT`:
  * `factorization`   — the stored strategy flag `factorization_`;
  * `valuesAtDim`     — `values_.at(key).dim()`, the solution-point lookup;
  * `marginalFactor`  — `bayesTree_.marginalFactor(key, fn)`;
  * `joint`           — `bayesTree_.joint(a, b, fn)` (dereferenced result);
  * `marginalMultifrontalBayesTree` — `graph_.marginalMultifrontalBayesTree(Ordering(vars), boost::none, fn)`;
  * `gaussianFactorGraphOfBayesTree` — the `GaussianFactorGraph(tree)` conversion;
  * `eliminateMultifrontal` — `graph_.eliminateMultifrontal(boost::none, fn)`. -/
structure MarginalsEnv (BT : Type) where
  factorization : Factorization
  valuesAtDim : Key → Nat
  marginalFactor : Key → ElimFn → GFactor
  joint : Key → Key → ElimFn → GaussianFG
  marginalMultifrontalBayesTree : List Key → ElimFn → BT
  gaussianFactorGraphOfBayesTree : BT → GaussianFG
  eliminateMultifrontal : ElimFn → BT

/-- The elimination function the dispatch selects once the factorization is
recognized (used on the right-hand side of the characterization theorems). -/
def elimFnOf {BT : Type} (env : MarginalsEnv BT) : ElimFn :=
  if env.factorization = CHOLESKY then ElimFn.preferCholesky else ElimFn.qr

/-- The `Marginals` constructor's Bayes-tree computation (`Marginals.cpp`
lines 40-44): the member `bayesTree_` is assigned only when the flag matches
one of the two recognized constants; `none` models the tree being left
unbuilt. -/
def constructedBayesTree {BT : Type} (env : MarginalsEnv BT) : Option BT :=
  if env.factorization = CHOLESKY then some (env.eliminateMultifrontal .preferCholesky)
  else if env.factorization = QR then some (env.eliminateMultifrontal .qr)
  else none

/-- The `marginalFactor` shared pointer inside `Marginals::marginalInformation`
(lines 65-69): declared null, assigned only under a recognized factorization. -/
def marginalFactorPtr {BT : Type} (env : MarginalsEnv BT) (v : Key) : Option GFactor :=
  if env.factorization = CHOLESKY then some (env.marginalFactor v .preferCholesky)
  else if env.factorization = QR then some (env.marginalFactor v .qr)
  else none

/-- `Marginals::marginalInformation(variable)`: the unconditional dereference
`marginalFactor->information()`; `none` models the null-pointer dereference
reached under an unrecognized factorization. -/
def marginalInformation {BT : Type} (env : MarginalsEnv BT) (v : Key) : Option GMatrix :=
  (marginalFactorPtr env v).map GFactor.information

/-- `Marginals::marginalCovariance(variable)`:
`marginalInformation(variable).inverse()`. -/
def marginalCovariance {BT : Type} (env : MarginalsEnv BT) (v : Key) : Option GMatrix :=
  (marginalInformation env v).map GMatrix.inverse

/-- Modelled from the spec: the Joint Marginal Result (the `JointMarginal`
class lives in `Marginals.h`, outside the given sources) — the ordered queried
keys, the parallel dimension sequence, and the one square matrix whose
row/column partition mirrors those dimensions. -/
structure JointMarginal where
  fullMatrix : GMatrix
  dims : List Nat
  keys : List Key

/-- Modelled from the spec: `JointMarginal::at(keyA, keyB)` (section 4.4) —
the sub-matrix at the row range of `keyA` and the column range of `keyB`,
offsets obtained by summing the dimensions of all preceding variables;
`none` models the `KeyNotFound` failure for an absent key. -/
def JointMarginal.atBlock (jm : JointMarginal) (a b : Key) : Option GMatrix :=
  match jm.keys.findIdx? (fun x => x = a), jm.keys.findIdx? (fun x => x = b) with
  | some ia, some ib =>
      some ⟨jm.dims.getD ia 0, jm.dims.getD ib 0, fun i j =>
        if i < jm.dims.getD ia 0 ∧ j < jm.dims.getD ib 0 then
          jm.fullMatrix.entry ((jm.dims.take ia).sum + i) ((jm.dims.take ib).sum + j)
        else 0⟩
  | _, _ => none

/-- `Marginals::jointMarginalInformation(variables)` (lines 84-124): dispatch
on the number of requested variables; one variable delegates to
`marginalInformation`; two variables query the Bayes tree's joint factor
graph; otherwise the original graph is re-eliminated with the requested
ordering and the resulting tree converted to a factor graph; then the
augmented Hessian is computed, its trailing row and column stripped, and the
result wrapped with the dimensions read from the solution point in caller
order. -/
def jointMarginalInformation {BT : Type} (env : MarginalsEnv BT) (vars : List Key) :
    Option JointMarginal :=
  if vars.length = 1 then
    (marginalInformation env (vars.headD 0)).map fun info =>
      ⟨info, [info.rows], vars⟩
  else
    let jointFG : GaussianFG :=
      if vars.length = 2 then
        if env.factorization = CHOLESKY then
          env.joint (vars.getD 0 0) (vars.getD 1 0) .preferCholesky
        else if env.factorization = QR then
          env.joint (vars.getD 0 0) (vars.getD 1 0) .qr
        else GaussianFG.defaultFG
      else
        if env.factorization = CHOLESKY then
          env.gaussianFactorGraphOfBayesTree
            (env.marginalMultifrontalBayesTree vars .preferCholesky)
        else if env.factorization = QR then
          env.gaussianFactorGraphOfBayesTree
            (env.marginalMultifrontalBayesTree vars .qr)
        else GaussianFG.defaultFG
    let dims := vars.map env.valuesAtDim
    let augmentedInfo := jointFG.augmentedHessian
    let info := augmentedInfo.topLeftCorner (augmentedInfo.rows - 1) (augmentedInfo.cols - 1)
    some ⟨info, dims, vars⟩

/-- `Marginals::jointMarginalCovariance(variables)` (lines 77-81): compute the
joint marginal information, then overwrite the full matrix with its numeric
inverse; keys and dimensions are untouched. -/
def jointMarginalCovariance {BT : Type} (env : MarginalsEnv BT) (vars : List Key) :
    Option JointMarginal :=
  (jointMarginalInformation env vars).map fun info =>
    ⟨info.fullMatrix.inverse, info.dims, info.keys⟩

/-- Stripping the right-hand-side augmentation: drop the last row and column
of the augmented information matrix (`topLeftCorner(rows-1, cols-1)`). -/
def stripAugmentation (A : GMatrix) : GMatrix :=
  A.topLeftCorner (A.rows - 1) (A.cols - 1)

/-- Dimension-sum consistency of a produced Joint Marginal Result: recorded
dimensions sum to the row count of the matrix, which is square. -/
def dimsSumConsistent : Option JointMarginal → Prop
  | none => True
  | some jm => jm.dims.sum = jm.fullMatrix.rows ∧ jm.fullMatrix.cols = jm.fullMatrix.rows

/-- The joint factor graph selected by the multi-variable branch once the
factorization is recognized: the Bayes tree's pairwise joint for exactly two
variables, otherwise conversion of the re-eliminated multifrontal tree over
the requested ordering. -/
def jointFGOf {BT : Type} (env : MarginalsEnv BT) (vars : List Key) : GaussianFG :=
  if vars.length = 2 then
    env.joint (vars.getD 0 0) (vars.getD 1 0) (elimFnOf env)
  else
    env.gaussianFactorGraphOfBayesTree (env.marginalMultifrontalBayesTree vars (elimFnOf env))

/-- A concrete environment over a trivial Bayes-tree type, used to evaluate
the query paths: every variable reports dimension 5 in the solution point,
while the Bayes tree returns a 2-by-2 all-ones (hence singular) marginal
information matrix. -/
def sampleEnv (f : Factorization) : MarginalsEnv Unit where
  factorization := f
  valuesAtDim := fun _ => 5
  marginalFactor := fun _ _ => ⟨⟨2, 2, fun _ _ => 1⟩⟩
  joint := fun _ _ _ => ⟨⟨3, 3, fun i j => if i = j then 1 else 0⟩⟩
  marginalMultifrontalBayesTree := fun _ _ => ()
  gaussianFactorGraphOfBayesTree := fun _ => ⟨⟨4, 4, fun _ _ => 0⟩⟩
  eliminateMultifrontal := fun _ => ()

/-- A dimension-consistent concrete environment: every variable has dimension
1, the pairwise joint factor graph has a 3-by-3 augmented Hessian, and the
re-eliminated tree over `vs` (the Bayes-tree type carries the requested
ordering) converts to a graph with a `(|vs|+1)`-square augmented Hessian. -/
def consistentEnv : MarginalsEnv (List Key) where
  factorization := CHOLESKY
  valuesAtDim := fun _ => 1
  marginalFactor := fun _ _ => ⟨⟨1, 1, fun _ _ => 2⟩⟩
  joint := fun _ _ _ => ⟨⟨3, 3, fun _ _ => 0⟩⟩
  marginalMultifrontalBayesTree := fun vs _ => vs
  gaussianFactorGraphOfBayesTree := fun vs => ⟨⟨vs.length + 1, vs.length + 1, fun _ _ => 0⟩⟩
  eliminateMultifrontal := fun _ => []

/-- A keyed 2-row block against a length-3 right-hand side (the spec's own
failing example for block validation). -/
def termBad : Key × GMatrix := (1, ⟨2, 1, fun _ _ => 0⟩)

/-- A keyed well-formed 3-row block. -/
def termGood : Key × GMatrix := (7, ⟨3, 2, fun i j => (i : ℚ) + j⟩)

/-- A length-3 right-hand-side vector. -/
def vec3 : GVector := ⟨3, fun _ => 1⟩

/-- A two-block augmented store with 3 rows: one width-2 variable block and a
width-1 right-hand-side block. -/
def storePair : VerticalBlockMatrix :=
  ⟨3, [⟨3, 2, fun _ _ => 0⟩, ⟨3, 1, fun _ _ => 0⟩]⟩

/-! Supporting lemmas about the fillTerms loop. -/

/-- Junk matrix used as an out-of-range default. -/
def zeroMatrix : GMatrix := ⟨0, 0, fun _ _ => 0⟩

lemma set_append_length {α : Type} (pre : List α) (r : α) (rs : List α) (v : α) :
    (pre ++ r :: rs).set pre.length v = pre ++ v :: rs := by
  induction pre with
  | nil => rfl
  | cons p ps ih => simp [ih]

lemma noiseModelCheck_eq_none (model : SharedDiagonal) (n : Nat)
    (h : ∀ nm ∈ model, nm.dim = n) : noiseModelCheck model n = none := by
  cases model with
  | none => rfl
  | some nm => simp [noiseModelCheck, h nm rfl]

lemma ofWidths_ok (widths : List Nat) (height : Nat) (h : ∀ w ∈ widths, w ≠ 0) :
    VerticalBlockMatrix.ofWidths widths height =
      .ok ⟨height, widths.map (fun w => ⟨height, w, fun _ _ => 0⟩)⟩ := by
  have hall : widths.all (fun w => w != 0) = true := by
    simp only [List.all_eq_true, bne_iff_ne]
    exact h
  simp [VerticalBlockMatrix.ofWidths, hall]

lemma fillTermsLoop_ok (bsize : Nat) :
    ∀ (terms : List (Key × GMatrix)), (∀ t ∈ terms, t.2.rows = bsize) →
    ∀ (preK restK : List Key) (preB restB : List GMatrix) (h : Nat),
      preB.length = preK.length →
      terms.length ≤ restK.length → terms.length ≤ restB.length →
      fillTermsLoop bsize terms preK.length (preK ++ restK) ⟨h, preB ++ restB⟩ =
        .ok (preK ++ terms.map Prod.fst ++ restK.drop terms.length,
             ⟨h, preB ++ terms.map Prod.snd ++ restB.drop terms.length⟩) := by
  intro terms
  induction terms with
  | nil =>
    intro _ preK restK preB restB h _ _ _
    simp [fillTermsLoop]
  | cons t ts ih =>
    intro hrows preK restK preB restB h hpb hk hb
    cases restK with
    | nil => simp at hk
    | cons k ks =>
      cases restB with
      | nil => simp at hb
      | cons r rs =>
        have ht : t.2.rows = bsize := hrows t (List.mem_cons_self t ts)
        have hts : ∀ u ∈ ts, u.2.rows = bsize := fun u hu => hrows u (List.mem_cons_of_mem t hu)
        rw [fillTermsLoop]
        rw [if_neg (by omega)]
        rw [set_append_length]
        have hsetB : VerticalBlockMatrix.setBlock ⟨h, preB ++ r :: rs⟩ preK.length t.2 =
            ⟨h, preB ++ t.2 :: rs⟩ := by
          simp only [VerticalBlockMatrix.setBlock]
          rw [← hpb, set_append_length]
        rw [hsetB]
        have := ih hts (preK ++ [t.1]) ks (preB ++ [t.2]) rs h
          (by simp [hpb]) (by simpa using hk) (by simpa using hb)
        simp only [List.length_append, List.length_cons, List.length_nil] at this
        simpa [List.append_assoc] using this

lemma fillTermsLoop_error_at (bsize : Nat) :
    ∀ (pre : List (Key × GMatrix)), (∀ u ∈ pre, u.2.rows = bsize) →
    ∀ (t : Key × GMatrix), t.2.rows ≠ bsize →
    ∀ (post : List (Key × GMatrix)) (i : Nat) (keys : List Key) (Ab : VerticalBlockMatrix),
      fillTermsLoop bsize (pre ++ t :: post) i keys Ab =
        .error (.invalidMatrixBlock bsize t.2.rows) := by
  intro pre
  induction pre with
  | nil =>
    intro _ t ht post i keys Ab
    simp [fillTermsLoop, ht]
  | cons u us ih =>
    intro hpre t ht post i keys Ab
    have hu : u.2.rows = bsize := hpre u (List.mem_cons_self u us)
    have hus : ∀ w ∈ us, w.2.rows = bsize := fun w hw => hpre w (List.mem_cons_of_mem u hw)
    rw [List.cons_append, fillTermsLoop, if_neg (by omega)]
    exact ih hus t ht post _ _ _

lemma fillTermsLoop_error_mem (bsize : Nat) :
    ∀ (terms : List (Key × GMatrix)) (i : Nat) (keys : List Key) (Ab : VerticalBlockMatrix)
      (e : LinearError),
      fillTermsLoop bsize terms i keys Ab = .error e →
      ∃ t ∈ terms, t.2.rows ≠ bsize ∧ e = .invalidMatrixBlock bsize t.2.rows := by
  intro terms
  induction terms with
  | nil => intro i keys Ab e h; simp [fillTermsLoop] at h
  | cons t ts ih =>
    intro i keys Ab e h
    rw [fillTermsLoop] at h
    by_cases hr : t.2.rows = bsize
    · rw [if_neg (by omega)] at h
      obtain ⟨u, hu, hne, he⟩ := ih _ _ _ _ h
      exact ⟨u, List.mem_cons_of_mem t hu, hne, he⟩
    · rw [if_pos (by omega)] at h
      exact ⟨t, List.mem_cons_self t ts, hr, by cases h; rfl⟩

/-! Supporting lemmas about the marginal query engine. -/

lemma marginalInformation_some {BT : Type} (env : MarginalsEnv BT) (v : Key)
    (hrec : env.factorization = CHOLESKY ∨ env.factorization = QR) :
    marginalInformation env v = some ((env.marginalFactor v (elimFnOf env)).information) := by
  rcases hrec with h | h <;>
    simp [marginalInformation, marginalFactorPtr, elimFnOf, h, CHOLESKY, QR]

lemma jointMarginalInformation_single {BT : Type} (env : MarginalsEnv BT) (v : Key)
    (hrec : env.factorization = CHOLESKY ∨ env.factorization = QR) :
    jointMarginalInformation env [v] =
      some ⟨(env.marginalFactor v (elimFnOf env)).information,
            [((env.marginalFactor v (elimFnOf env)).information).rows], [v]⟩ := by
  rw [jointMarginalInformation]
  simp only [List.length_singleton, if_pos rfl]
  rw [show [v].headD 0 = v from rfl, marginalInformation_some env v hrec]
  rfl

lemma jointMarginalInformation_multi {BT : Type} (env : MarginalsEnv BT) (vars : List Key)
    (hrec : env.factorization = CHOLESKY ∨ env.factorization = QR)
    (hlen : vars.length ≠ 1) :
    jointMarginalInformation env vars =
      some ⟨stripAugmentation (jointFGOf env vars).augmentedHessian,
            vars.map env.valuesAtDim, vars⟩ := by
  rcases hrec with h | h <;>
    simp [jointMarginalInformation, hlen, jointFGOf, stripAugmentation, elimFnOf, h,
      CHOLESKY, QR]

lemma atBlock_single (N : GMatrix) (d : Nat) (v : Key) (hr : N.rows = d) (hc : N.cols = d)
    (hclip : ∀ i j, ¬(i < d ∧ j < d) → N.entry i j = 0) :
    JointMarginal.atBlock ⟨N, [d], [v]⟩ v v = some N := by
  simp only [JointMarginal.atBlock, List.findIdx?, decide_eq_true_eq, if_true, ite_true]
  refine congrArg some ?_
  ext i j
  · simp [hr]
  · simp [hc]
  · by_cases hij : i < d ∧ j < d
    · simp [hij]
    · simp [hij, hclip i j hij]

lemma inverse_clip (A : GMatrix) :
    ∀ i j, ¬(i < A.rows ∧ j < A.rows) → A.inverse.entry i j = 0 := by
  intro i j h
  simp [GMatrix.inverse, h]

lemma sum_map_one (vs : List Key) : (vs.map (fun _ => 1)).sum = vs.length := by
  induction vs with
  | nil => rfl
  | cons v vs ih =>
    simp [ih]
    omega

/-- C3: in `fillTerms`, a noise model whose dimension differs from the
right-hand-side length fails with `InvalidNoiseModel(|b|, dim)` before any
block is examined; otherwise the first block (in iteration order) whose row
count differs from `|b|` fails with `InvalidMatrixBlock(|b|, rows)`; and these
two are the only errors this path can raise.  The positivity hypothesis on
block widths is the Block Matrix Store's own input contract (spec section
4.1), under which its spec-modelled `DimensionError` cannot fire. -/
theorem fillTerms_error_dichotomy (terms : List (Key × GMatrix)) (b : GVector)
    (noiseModel : SharedDiagonal) (hpos : ∀ t ∈ terms, t.2.cols ≠ 0) :
    (∀ nm, noiseModel = some nm → nm.dim ≠ b.size →
       fillTerms terms b noiseModel = .error (.invalidNoiseModel b.size nm.dim))
  ∧ ((∀ nm ∈ noiseModel, nm.dim = b.size) →
     ∀ pre t post, terms = pre ++ t :: post → (∀ u ∈ pre, u.2.rows = b.size) →
       t.2.rows ≠ b.size →
       fillTerms terms b noiseModel = .error (.invalidMatrixBlock b.size t.2.rows))
  ∧ (∀ e, fillTerms terms b noiseModel = .error e →
       (∃ nm, noiseModel = some nm ∧ nm.dim ≠ b.size ∧ e = .invalidNoiseModel b.size nm.dim)
     ∨ (∃ t ∈ terms, t.2.rows ≠ b.size ∧ e = .invalidMatrixBlock b.size t.2.rows)) := by
  have hwidths : ∀ w ∈ terms.map (fun t => t.2.cols) ++ ListOfOne 1, w ≠ 0 := by
    intro w hw
    rcases List.mem_append.mp hw with hw | hw
    · obtain ⟨t, ht, rfl⟩ := List.mem_map.mp hw
      exact hpos t ht
    · simp [ListOfOne] at hw
      omega
  refine ⟨?_, ?_, ?_⟩
  · intro nm hm hne
    subst hm
    simp [fillTerms, noiseModelCheck, hne]
  · intro hnm pre t post hterms hpre ht
    subst hterms
    simp only [fillTerms, noiseModelCheck_eq_none noiseModel b.size hnm,
      ofWidths_ok _ _ hwidths, fillTermsLoop_error_at b.size pre hpre t ht post]
  · intro e he
    rw [fillTerms] at he
    cases hm : noiseModelCheck noiseModel b.size with
    | some err =>
      simp only [hm, Except.error.injEq] at he
      cases noiseModel with
      | none => simp [noiseModelCheck] at hm
      | some nm =>
        by_cases hd : nm.dim = b.size
        · simp [noiseModelCheck, hd] at hm
        · left
          refine ⟨nm, rfl, hd, ?_⟩
          simp only [noiseModelCheck, if_pos hd] at hm
          rw [← he]
          cases hm
          rfl
    | none =>
      simp only [hm, ofWidths_ok _ _ hwidths] at he
      right
      split at he
      next e2 heq =>
        obtain ⟨t, ht, hne, he2⟩ := fillTermsLoop_error_mem b.size terms _ _ _ _ heq
        refine ⟨t, ht, hne, ?_⟩
        injection he with h
        rw [← h, he2]
      next kb heq => simp at he

/-- C4: on every well-formed input (all block row counts equal `|b|`, any
present noise model of dimension `|b|`, positive block widths per the store's
input contract), `fillTerms` succeeds; the resulting factor stores the keys in
order, `|terms| + 1` blocks of row count `|b|` whose widths are the supplied
column counts followed by a trailing `1`, block `i` holding the `i`-th
supplied matrix, and the trailing block holding the right-hand side. -/
theorem fillTerms_wellFormed (terms : List (Key × GMatrix)) (b : GVector)
    (noiseModel : SharedDiagonal)
    (hpos : ∀ t ∈ terms, t.2.cols ≠ 0)
    (hrows : ∀ t ∈ terms, t.2.rows = b.size)
    (hnm : ∀ nm ∈ noiseModel, nm.dim = b.size) :
    fillTerms terms b noiseModel =
      .ok ⟨terms.map Prod.fst,
           ⟨b.size, terms.map Prod.snd ++ [⟨b.size, 1, fun r _ => b.entry r⟩]⟩,
           noiseModel⟩
  ∧ ∀ jf, fillTerms terms b noiseModel = .ok jf →
      jf.keys = terms.map Prod.fst
      ∧ jf.Ab.rowCount = b.size
      ∧ jf.Ab.nBlocks = terms.length + 1
      ∧ jf.Ab.blocks.map GMatrix.cols = terms.map (fun t => t.2.cols) ++ [1]
      ∧ (∀ A ∈ jf.Ab.blocks, A.rows = b.size)
      ∧ (∀ i (hi : i < terms.length), jf.Ab.block i = (terms.get ⟨i, hi⟩).2)
      ∧ jf.Ab.block terms.length = ⟨b.size, 1, fun r _ => b.entry r⟩
      ∧ jf.model = noiseModel := by
  have hwidths : ∀ w ∈ terms.map (fun t => t.2.cols) ++ ListOfOne 1, w ≠ 0 := by
    intro w hw
    rcases List.mem_append.mp hw with hw | hw
    · obtain ⟨t, ht, rfl⟩ := List.mem_map.mp hw
      exact hpos t ht
    · simp [ListOfOne] at hw
      omega
  have hmain : fillTerms terms b noiseModel =
      .ok ⟨terms.map Prod.fst,
           ⟨b.size, terms.map Prod.snd ++ [⟨b.size, 1, fun r _ => b.entry r⟩]⟩,
           noiseModel⟩ := by
    have hloop := fillTermsLoop_ok b.size terms hrows [] (List.replicate terms.length 0) []
      ((terms.map (fun t => t.2.cols) ++ ListOfOne 1).map (fun w => ⟨b.size, w, fun _ _ => 0⟩))
      b.size (by simp) (by simp) (by simp [ListOfOne])
    simp only [List.length_nil, List.nil_append] at hloop
    simp only [fillTerms, noiseModelCheck_eq_none noiseModel b.size hnm,
      ofWidths_ok _ _ hwidths, hloop]
    simp only [List.drop_replicate]
    have hdrop : ((terms.map (fun t => t.2.cols) ++ ListOfOne 1).map
        (fun w => (⟨b.size, w, fun _ _ => 0⟩ : GMatrix))).drop terms.length =
        [⟨b.size, 1, fun _ _ => 0⟩] := by
      rw [List.map_append]
      rw [List.drop_append_of_le_length (by simp)]
      simp [ListOfOne]
    rw [hdrop]
    simp only [assignRhs, VerticalBlockMatrix.setBlock]
    have hlen : (terms.map Prod.snd ++ [(⟨b.size, 1, fun _ _ => 0⟩ : GMatrix)]).length - 1 =
        (terms.map Prod.snd).length := by simp
    rw [hlen, set_append_length]
    simp
  refine ⟨hmain, ?_⟩
  intro jf hjf
  rw [hmain] at hjf
  cases hjf
  refine ⟨rfl, rfl, ?_, ?_, ?_, ?_, ?_, rfl⟩
  · simp [VerticalBlockMatrix.nBlocks]
  · simp
  · intro A hA
    rcases List.mem_append.mp hA with hA | hA
    · obtain ⟨t, ht, rfl⟩ := List.mem_map.mp hA
      exact hrows t ht
    · simp at hA
      subst hA
      rfl
  · intro i hi
    simp only [VerticalBlockMatrix.block]
    rw [List.getD_append _ _ _ _ (by simpa using hi)]
    rw [List.getD_eq_getElem _ _ (by simpa using hi)]
    simp
  · simp only [VerticalBlockMatrix.block]
    have : terms.length = (terms.map Prod.snd).length := by simp
    rw [this, List.getD_append_right _ _ _ _ (le_refl _)]
    simp

/-- C5: the KEYS constructor of `JacobianFactor` validates, in order, the
noise-model dimension against the store's row count (`InvalidNoiseModel`),
the key count against the block count minus one (signed comparison, an
`invalid_argument`), and the last block's width against `1`
(an `invalid_argument`); construction succeeds exactly when all three hold,
taking ownership of the store without copying. -/
theorem jacobianFactorOfKeys_validation (keys : List Key) (Ab : VerticalBlockMatrix)
    (model : SharedDiagonal) :
    (∀ nm, model = some nm → nm.dim ≠ Ab.rowCount →
       jacobianFactorOfKeys keys Ab model = .error (.invalidNoiseModel Ab.rowCount nm.dim))
  ∧ ((∀ nm ∈ model, nm.dim = Ab.rowCount) →
       (keys.length : Int) ≠ (Ab.nBlocks : Int) - 1 →
       jacobianFactorOfKeys keys Ab model = .error (.invalidArgument .keyCountMismatch))
  ∧ ((∀ nm ∈ model, nm.dim = Ab.rowCount) →
       (keys.length : Int) = (Ab.nBlocks : Int) - 1 →
       (Ab.block (Ab.nBlocks - 1)).cols ≠ 1 →
       jacobianFactorOfKeys keys Ab model = .error (.invalidArgument .lastBlockNotColumn))
  ∧ (jacobianFactorOfKeys keys Ab model = .ok ⟨keys, Ab, model⟩ ↔
       (∀ nm ∈ model, nm.dim = Ab.rowCount)
       ∧ (keys.length : Int) = (Ab.nBlocks : Int) - 1
       ∧ (Ab.block (Ab.nBlocks - 1)).cols = 1) := by
  refine ⟨?_, ?_, ?_, ?_⟩
  · intro nm hm hne
    subst hm
    simp [jacobianFactorOfKeys, noiseModelCheck, hne]
  · intro hnm hlen
    rw [jacobianFactorOfKeys, noiseModelCheck_eq_none model Ab.rowCount hnm, if_pos hlen]
  · intro hnm hlen hcols
    rw [jacobianFactorOfKeys, noiseModelCheck_eq_none model Ab.rowCount hnm,
      if_neg (by omega), if_pos hcols]
  · constructor
    · intro h
      rw [jacobianFactorOfKeys] at h
      cases hm : noiseModelCheck model Ab.rowCount with
      | some err => rw [hm] at h; cases h
      | none =>
        rw [hm] at h
        have hnm : ∀ nm ∈ model, nm.dim = Ab.rowCount := by
          intro nm hmem
          cases model with
          | none => cases hmem
          | some nm2 =>
            have : nm2 = nm := by simpa [Option.mem_def] using hmem
            subst this
            by_cases hd : nm2.dim = Ab.rowCount
            · exact hd
            · simp [noiseModelCheck, hd] at hm
        by_cases hlen : (keys.length : Int) = (Ab.nBlocks : Int) - 1
        · rw [if_neg (by omega)] at h
          by_cases hcols : (Ab.block (Ab.nBlocks - 1)).cols = 1
          · exact ⟨hnm, hlen, hcols⟩
          · rw [if_pos hcols] at h
            cases h
        · rw [if_pos hlen] at h
          cases h
    · rintro ⟨hnm, hlen, hcols⟩
      rw [jacobianFactorOfKeys, noiseModelCheck_eq_none model Ab.rowCount hnm,
        if_neg (by omega), if_neg (by omega)]

/-- Witness for C3 at the spec's own example: a single 2-row block against a
length-3 right-hand side fails with `InvalidMatrixBlock(3, 2)`. -/
theorem fillTerms_error_dichotomy_witness :
    fillTerms [termBad] vec3 none = .error (.invalidMatrixBlock 3 2) :=
  (fillTerms_error_dichotomy [termBad] vec3 none
      (by intro t ht; rw [List.mem_singleton] at ht; subst ht; decide)).2.1
    (by intro nm h; cases h) [] termBad [] rfl (by intro u hu; cases hu) (by decide)

/-- Witness for C4 at a concrete well-formed input: one 3-by-2 block, a
length-3 right-hand side and a dimension-3 noise model. -/
theorem fillTerms_wellFormed_witness :
    fillTerms [termGood] vec3 (some ⟨3⟩) =
      .ok ⟨[termGood].map Prod.fst,
           ⟨vec3.size, [termGood].map Prod.snd ++ [⟨vec3.size, 1, fun r _ => vec3.entry r⟩]⟩,
           some ⟨3⟩⟩ :=
  (fillTerms_wellFormed [termGood] vec3 (some ⟨3⟩)
      (by intro t ht; rw [List.mem_singleton] at ht; subst ht; decide)
      (by intro t ht; rw [List.mem_singleton] at ht; subst ht; decide)
      (by intro nm h; rw [Option.mem_def] at h; injection h with h2; rw [← h2]; rfl)).1

/-- Witness for C5 at concrete inputs: the two-block store accepts a matching
single key and rejects an empty key list with the key-count error. -/
theorem jacobianFactorOfKeys_validation_witness :
    jacobianFactorOfKeys [5] storePair none = .ok ⟨[5], storePair, none⟩
  ∧ jacobianFactorOfKeys [] storePair none = .error (.invalidArgument .keyCountMismatch) :=
  ⟨((jacobianFactorOfKeys_validation [5] storePair none).2.2.2).mpr
      ⟨(by intro nm h; cases h), (by decide), (by decide)⟩,
   (jacobianFactorOfKeys_validation [] storePair none).2.1
      (by intro nm h; cases h) (by decide)⟩

/-- C10: `marginalInformation` assigns the marginal-factor pointer only when
the stored factorization is one of the two recognized values and then
dereferences it unconditionally: under `CHOLESKY` or `QR` the pointer is
assigned (the dereference is safe), while any other flag value leaves it null
and the dereference hits it; the constructor likewise leaves the Bayes tree
unbuilt for such a value. -/
theorem marginalInformation_strategy_safety {BT : Type} (env : MarginalsEnv BT) (v : Key) :
    ((env.factorization = CHOLESKY ∨ env.factorization = QR) →
       (marginalFactorPtr env v).isSome ∧ (marginalInformation env v).isSome
         ∧ (constructedBayesTree env).isSome)
  ∧ (env.factorization ≠ CHOLESKY → env.factorization ≠ QR →
       marginalFactorPtr env v = none ∧ marginalInformation env v = none
         ∧ constructedBayesTree env = none) := by
  constructor
  · rintro (h | h) <;>
      simp [marginalFactorPtr, marginalInformation, constructedBayesTree, h, CHOLESKY, QR]
  · intro h1 h2
    simp [marginalFactorPtr, marginalInformation, constructedBayesTree, h1, h2]

/-- Witness for C10 at concrete inputs: under `CHOLESKY` the pointer and the
tree are assigned; under the unrecognized flag value `7` the dereference is of
a null pointer and the Bayes tree stays unbuilt. -/
theorem marginalInformation_strategy_safety_witness :
    ((marginalFactorPtr (sampleEnv CHOLESKY) 0).isSome
      ∧ (marginalInformation (sampleEnv CHOLESKY) 0).isSome
      ∧ (constructedBayesTree (sampleEnv CHOLESKY)).isSome)
  ∧ (marginalFactorPtr (sampleEnv 7) 0 = none
      ∧ marginalInformation (sampleEnv 7) 0 = none
      ∧ constructedBayesTree (sampleEnv 7) = none) :=
  ⟨(marginalInformation_strategy_safety (sampleEnv CHOLESKY) 0).1 (Or.inl rfl),
   (marginalInformation_strategy_safety (sampleEnv 7) 0).2 (by decide) (by decide)⟩

/-- C1 counterexample: in an environment where every solution-point dimension
is 5 but the tree's marginal information matrix is 2-by-2, the one-variable
joint marginal records dimension 2 — the information matrix's row count — and
not the solution-point dimension 5 the claim asserts. -/
theorem jointMarginal_single_dims_counterexample :
    (jointMarginalInformation (sampleEnv CHOLESKY) [0]).map JointMarginal.dims = some [2]
  ∧ (sampleEnv CHOLESKY).valuesAtDim 0 = 5
  ∧ (jointMarginalInformation (sampleEnv CHOLESKY) [0]).map JointMarginal.dims ≠
      some [(sampleEnv CHOLESKY).valuesAtDim 0] := by
  have h2 : (jointMarginalInformation (sampleEnv CHOLESKY) [0]).map JointMarginal.dims =
      some [2] := rfl
  refine ⟨h2, rfl, ?_⟩
  rw [h2]
  decide

/-- C1 amended: for a query of exactly one variable under a recognized
factorization, `jointMarginalInformation` delegates to `marginalInformation`
and wraps the result into a Joint Marginal Result whose single recorded
dimension is the ROW COUNT of the returned marginal information matrix
(the solution-point mapping is not consulted on this branch). -/
theorem jointMarginal_single_delegates {BT : Type} (env : MarginalsEnv BT) (v : Key)
    (hrec : env.factorization = CHOLESKY ∨ env.factorization = QR) :
    ∃ info, marginalInformation env v = some info ∧
      jointMarginalInformation env [v] = some ⟨info, [info.rows], [v]⟩ :=
  ⟨(env.marginalFactor v (elimFnOf env)).information,
   marginalInformation_some env v hrec, jointMarginalInformation_single env v hrec⟩

/-- Witness for the amended C1 at a concrete environment and key. -/
theorem jointMarginal_single_delegates_witness :
    ∃ info, marginalInformation (sampleEnv CHOLESKY) 3 = some info ∧
      jointMarginalInformation (sampleEnv CHOLESKY) [3] = some ⟨info, [info.rows], [3]⟩ :=
  jointMarginal_single_delegates (sampleEnv CHOLESKY) 3 (Or.inl rfl)

/-- C2: the joint-marginal dispatch — exactly two variables query the Bayes
tree collaborator's joint factor graph under the selected elimination
function; more than two re-eliminate the original linear graph through
`marginalMultifrontalBayesTree` with the requested variable list as the fresh
ordering and convert the new tree to a flat factor graph; both branches strip
the trailing row/column of the augmented Hessian and record each variable's
solution-point dimension in caller-given order. -/
theorem jointMarginalInformation_dispatch {BT : Type} (env : MarginalsEnv BT)
    (hrec : env.factorization = CHOLESKY ∨ env.factorization = QR) :
    (∀ a b : Key, jointMarginalInformation env [a, b] =
        some ⟨stripAugmentation (env.joint a b (elimFnOf env)).augmentedHessian,
              [env.valuesAtDim a, env.valuesAtDim b], [a, b]⟩)
  ∧ (∀ vs : List Key, 2 < vs.length →
      jointMarginalInformation env vs =
        some ⟨stripAugmentation (env.gaussianFactorGraphOfBayesTree
                (env.marginalMultifrontalBayesTree vs (elimFnOf env))).augmentedHessian,
              vs.map env.valuesAtDim, vs⟩) := by
  constructor
  · intro a b
    rw [jointMarginalInformation_multi env [a, b] hrec (by simp)]
    simp [jointFGOf]
  · intro vs hlen
    rw [jointMarginalInformation_multi env vs hrec (by omega)]
    simp [jointFGOf, Nat.ne_of_gt hlen]

/-- Witness for C2 at concrete inputs: a two-variable query and a
three-variable query in the sample environment. -/
theorem jointMarginalInformation_dispatch_witness :
    (jointMarginalInformation (sampleEnv CHOLESKY) [4, 9] =
      some ⟨stripAugmentation ((sampleEnv CHOLESKY).joint 4 9
              (elimFnOf (sampleEnv CHOLESKY))).augmentedHessian,
            [(sampleEnv CHOLESKY).valuesAtDim 4, (sampleEnv CHOLESKY).valuesAtDim 9],
            [4, 9]⟩)
  ∧ (jointMarginalInformation (sampleEnv CHOLESKY) [1, 2, 3] =
      some ⟨stripAugmentation ((sampleEnv CHOLESKY).gaussianFactorGraphOfBayesTree
              ((sampleEnv CHOLESKY).marginalMultifrontalBayesTree [1, 2, 3]
                (elimFnOf (sampleEnv CHOLESKY)))).augmentedHessian,
            [1, 2, 3].map (sampleEnv CHOLESKY).valuesAtDim, [1, 2, 3]⟩) :=
  ⟨(jointMarginalInformation_dispatch (sampleEnv CHOLESKY) (Or.inl rfl)).1 4 9,
   (jointMarginalInformation_dispatch (sampleEnv CHOLESKY) (Or.inl rfl)).2 [1, 2, 3]
     (by decide)⟩

/-- C6 counterexample: the 2-by-2 all-ones marginal information matrix in the
sample environment is singular (zero determinant), yet `marginalCovariance`
completes and hands back a matrix: no numerical-singularity error is detected
or raised on this path. -/
theorem marginalCovariance_singular_counterexample :
    GMatrix.det ((sampleEnv CHOLESKY).marginalFactor 0 ElimFn.preferCholesky).information = 0
  ∧ (marginalCovariance (sampleEnv CHOLESKY) 0).isSome = true := by
  constructor
  · show detN 2 (fun _ _ => (1 : ℚ)) = 0
    norm_num [detN, List.range_succ]
  · rfl

/-- C6 amended: no singularity detection exists on the covariance paths —
under a recognized factorization, `marginalCovariance` is exactly the numeric
inverse applied to the information matrix, and both it and
`jointMarginalCovariance` always return a result, invertible input or not. -/
theorem covariance_no_singularity_detection {BT : Type} (env : MarginalsEnv BT)
    (v : Key) (vs : List Key)
    (hrec : env.factorization = CHOLESKY ∨ env.factorization = QR) :
    marginalCovariance env v = (marginalInformation env v).map GMatrix.inverse
  ∧ (∃ M, marginalCovariance env v = some M)
  ∧ (∃ jm, jointMarginalCovariance env vs = some jm) := by
  refine ⟨rfl, ?_, ?_⟩
  · exact ⟨_, by rw [marginalCovariance, marginalInformation_some env v hrec]; rfl⟩
  · by_cases h1 : vs.length = 1
    · obtain ⟨w, rfl⟩ := List.length_eq_one.mp h1
      exact ⟨_, by rw [jointMarginalCovariance, jointMarginalInformation_single env w hrec]; rfl⟩
    · exact ⟨_, by rw [jointMarginalCovariance, jointMarginalInformation_multi env vs hrec h1]; rfl⟩

/-- Witness for the amended C6 at a concrete environment whose marginal
information matrix is singular. -/
theorem covariance_no_singularity_detection_witness :
    marginalCovariance (sampleEnv CHOLESKY) 0 =
      (marginalInformation (sampleEnv CHOLESKY) 0).map GMatrix.inverse
  ∧ (∃ M, marginalCovariance (sampleEnv CHOLESKY) 0 = some M)
  ∧ (∃ jm, jointMarginalCovariance (sampleEnv CHOLESKY) [0] = some jm) :=
  covariance_no_singularity_detection (sampleEnv CHOLESKY) 0 [0] (Or.inl rfl)

/-- C7 round-trip: under a recognized factorization, `marginalCovariance(v)`
is the numeric inverse of `marginalInformation(v)`, and the single-variable
`jointMarginalCovariance([v])` queried at `(v, v)` returns exactly that
numeric inverse. -/
theorem covariance_roundTrip {BT : Type} (env : MarginalsEnv BT) (v : Key)
    (hrec : env.factorization = CHOLESKY ∨ env.factorization = QR) :
    ∃ info, marginalInformation env v = some info ∧
      marginalCovariance env v = some info.inverse ∧
      (jointMarginalCovariance env [v]).bind (fun jm => jm.atBlock v v) =
        some info.inverse := by
  refine ⟨(env.marginalFactor v (elimFnOf env)).information,
    marginalInformation_some env v hrec, ?_, ?_⟩
  · rw [marginalCovariance, marginalInformation_some env v hrec]
    rfl
  · rw [jointMarginalCovariance, jointMarginalInformation_single env v hrec]
    exact atBlock_single _ _ v rfl rfl (inverse_clip _)

/-- Witness for C7 at a concrete environment and key. -/
theorem covariance_roundTrip_witness :
    ∃ info, marginalInformation (sampleEnv CHOLESKY) 6 = some info ∧
      marginalCovariance (sampleEnv CHOLESKY) 6 = some info.inverse ∧
      (jointMarginalCovariance (sampleEnv CHOLESKY) [6]).bind (fun jm => jm.atBlock 6 6) =
        some info.inverse :=
  covariance_roundTrip (sampleEnv CHOLESKY) 6 (Or.inl rfl)

/-- C8: `jointMarginalCovariance` returns the same Joint Marginal Result as
`jointMarginalInformation` except that the aggregate matrix is replaced, as a
whole, by its numeric inverse: the variable list, the per-variable dimension
partition and the matrix's row count are unchanged, and no per-block
inversion takes place. -/
theorem jointMarginalCovariance_frame {BT : Type} (env : MarginalsEnv BT)
    (vs : List Key) :
    jointMarginalCovariance env vs =
      (jointMarginalInformation env vs).map
        (fun jm => ⟨jm.fullMatrix.inverse, jm.dims, jm.keys⟩)
  ∧ (jointMarginalCovariance env vs).map JointMarginal.dims =
      (jointMarginalInformation env vs).map JointMarginal.dims
  ∧ (jointMarginalCovariance env vs).map JointMarginal.keys =
      (jointMarginalInformation env vs).map JointMarginal.keys
  ∧ (jointMarginalCovariance env vs).map (fun jm => jm.fullMatrix.rows) =
      (jointMarginalInformation env vs).map (fun jm => jm.fullMatrix.rows) := by
  refine ⟨rfl, ?_, ?_, ?_⟩ <;>
    simp only [jointMarginalCovariance] <;> cases jointMarginalInformation env vs <;> rfl

/-- C9: dimension-sum invariant — whenever the collaborators respect their
interface contracts (marginal information matrices are square; augmented
Hessians are square of size one more than the total solution-point dimension
of the requested variables), every Joint Marginal Result produced by
`jointMarginalInformation` or `jointMarginalCovariance` has recorded
dimensions summing to the row count of its square matrix. -/
theorem jointMarginal_dims_sum_invariant {BT : Type} (env : MarginalsEnv BT)
    (vs : List Key)
    (hrec : env.factorization = CHOLESKY ∨ env.factorization = QR)
    (hsq : ∀ v fn, ((env.marginalFactor v fn).information).cols =
        ((env.marginalFactor v fn).information).rows)
    (hjoint : ∀ a b fn,
        ((env.joint a b fn).augmentedHessian).rows =
          env.valuesAtDim a + env.valuesAtDim b + 1 ∧
        ((env.joint a b fn).augmentedHessian).cols =
          ((env.joint a b fn).augmentedHessian).rows)
    (htree : ∀ (ws : List Key) fn,
        ((env.gaussianFactorGraphOfBayesTree
            (env.marginalMultifrontalBayesTree ws fn)).augmentedHessian).rows =
          (ws.map env.valuesAtDim).sum + 1 ∧
        ((env.gaussianFactorGraphOfBayesTree
            (env.marginalMultifrontalBayesTree ws fn)).augmentedHessian).cols =
          ((env.gaussianFactorGraphOfBayesTree
            (env.marginalMultifrontalBayesTree ws fn)).augmentedHessian).rows) :
    dimsSumConsistent (jointMarginalInformation env vs)
  ∧ dimsSumConsistent (jointMarginalCovariance env vs) := by
  have hinfo : dimsSumConsistent (jointMarginalInformation env vs) := by
    by_cases h1 : vs.length = 1
    · obtain ⟨v, rfl⟩ := List.length_eq_one.mp h1
      rw [jointMarginalInformation_single env v hrec]
      simp [dimsSumConsistent, hsq v (elimFnOf env)]
    · have haug : (jointFGOf env vs).augmentedHessian.rows =
          (vs.map env.valuesAtDim).sum + 1 ∧
          (jointFGOf env vs).augmentedHessian.cols =
            (jointFGOf env vs).augmentedHessian.rows := by
        by_cases h2 : vs.length = 2
        · obtain ⟨a, b, rfl⟩ := List.length_eq_two.mp h2
          have := hjoint a b (elimFnOf env)
          simpa [jointFGOf] using this
        · have := htree vs (elimFnOf env)
          simpa [jointFGOf, h2] using this
      rcases haug with ⟨har, hac⟩
      rw [jointMarginalInformation_multi env vs hrec h1]
      simp only [dimsSumConsistent, stripAugmentation, GMatrix.topLeftCorner]
      constructor
      · rw [har]
        omega
      · rw [hac]
  refine ⟨hinfo, ?_⟩
  rw [jointMarginalCovariance]
  cases hjm : jointMarginalInformation env vs with
  | none => exact trivial
  | some jm =>
    rw [hjm] at hinfo
    show dimsSumConsistent (some ⟨jm.fullMatrix.inverse, jm.dims, jm.keys⟩)
    exact ⟨hinfo.1, rfl⟩

/-- Witness for C9 at a dimension-consistent environment and a two-variable
query. -/
theorem jointMarginal_dims_sum_invariant_witness :
    dimsSumConsistent (jointMarginalInformation consistentEnv [4, 7])
  ∧ dimsSumConsistent (jointMarginalCovariance consistentEnv [4, 7]) :=
  jointMarginal_dims_sum_invariant consistentEnv [4, 7] (Or.inl rfl)
    (fun _ _ => rfl) (fun _ _ _ => ⟨rfl, rfl⟩)
    (fun ws _ => ⟨by simp [consistentEnv, sum_map_one], rfl⟩)

end GtsamSpec
